import Mathlib

/-!
Verification development for the core simulation engine of this repository
(declarative-network compiler and stepper).  The repository snapshot under
analysis ships only its packaging metadata and documentation notebooks; every
component below is therefore a shallow embedding reconstructed from the
specification's own words (Signal/Operator data model, Dependency Resolver,
Operator Merger, Stepper, Probe Recorder), and every definition carries a
doc comment naming the part of the system it models.
-/

namespace NengoCore

/-- Modelled from the spec: an Operator's four disjoint signal-access sets
(`reads`, `sets`, `increments`, `updates`), each a list of signal
identifiers (views already resolved to base signals unless stated
otherwise).  Spec section 3, "Operator". -/
structure Op where
  reads : List Nat
  sets : List Nat
  incs : List Nat
  updates : List Nat
deriving DecidableEq

instance : Inhabited Op := ⟨⟨[], [], [], []⟩⟩

/-- Modelled from the spec: the compile-time failure taxonomy of the
Dependency Resolver (spec sections 4.2 and 7). -/
inductive CompileError where
  | MultipleSetterError
  | UnsetReadError
  | CyclicDependencyError
deriving DecidableEq

/-- Same-step writers of an operator: the signals it sets or increments
(spec section 4.2 step 1, "writers"). -/
def sameStepWrites (o : Op) : List Nat := o.sets ++ o.incs

/-- Modelled from the spec: the derived dependency edge `j ⟶ i` of the
Dependency Resolver's graph (spec section 4.2 step 2): operator `i` must
run after operator `j` when `j` same-step-writes a signal `i` reads, or
when `j` sets a signal `i` increments.  Update access carries no same-step
edge. -/
def edgeB (ops : List Op) (j i : Nat) : Bool :=
  (sameStepWrites (ops.getD j default)).any
      (fun s => decide (s ∈ (ops.getD i default).reads)) ||
    (ops.getD j default).sets.any (fun s => decide (s ∈ (ops.getD i default).incs))

/-- All signal identifiers mentioned by any operator of the model. -/
def allSignals (ops : List Op) : List Nat :=
  ops.foldr (fun o acc => o.reads ++ o.sets ++ o.incs ++ o.updates ++ acc) []

/-- Indices of the operators that set signal `s` (spec section 4.2). -/
def settersOf (ops : List Op) (s : Nat) : List Nat :=
  (List.range ops.length).filter (fun k => decide (s ∈ (ops.getD k default).sets))

/-- Modelled from the spec: detection of the multiple-setter hazard — some
signal has two or more setters (spec section 4.2 step 2). -/
def hasMultipleSetters (ops : List Op) : Bool :=
  (allSignals ops).any (fun s => decide (2 ≤ (settersOf ops s).length))

/-- Modelled from the spec: detection of the unset-read hazard — some
signal is read but never set, incremented or updated by any operator
(spec sections 3 invariant and 4.2 failure modes). -/
def hasUnsetRead (ops : List Op) : Bool :=
  ops.any (fun o => o.reads.any (fun s =>
    !(ops.any (fun p =>
        decide (s ∈ p.sets) || decide (s ∈ p.incs) || decide (s ∈ p.updates)))))

/-- Modelled from the spec: Kahn-style topological ordering with ties broken
by insertion order (spec section 4.2 step 3): among the remaining operators,
repeatedly emit the first (least-index) one with no incoming edge from any
remaining operator; report failure (`none`) when none is ready, which means
a same-step cycle. -/
def kahn (ops : List Op) : Nat → List Nat → Option (List Nat)
  | _, [] => some []
  | 0, _ :: _ => none
  | fuel + 1, r :: rs =>
    match (r :: rs).find? (fun i => (r :: rs).all (fun j => !edgeB ops j i)) with
    | some i => (kahn ops fuel ((r :: rs).erase i)).map (fun t => i :: t)
    | none => none

/-- Modelled from the spec: the Dependency Resolver (spec section 4.2).
Validates the operator list (multiple-setter check, unset-read check) and
computes one fixed linear schedule, or fails with the corresponding
compile-time error; a same-step cycle yields `CyclicDependencyError`. -/
def compile (ops : List Op) : Except CompileError (List Nat) :=
  if hasMultipleSetters ops then .error .MultipleSetterError
  else if hasUnsetRead ops then .error .UnsetReadError
  else
    match kahn ops ops.length (List.range ops.length) with
    | some sched => .ok sched
    | none => .error .CyclicDependencyError

/-- Modelled from the spec: view resolution — every signal handle an
operator declares is mapped to its base signal before hazard analysis
(spec section 4.2 step 1). -/
def resolveOp (base : Nat → Nat) (o : Op) : Op :=
  ⟨o.reads.map base, o.sets.map base, o.incs.map base, o.updates.map base⟩

/-- The Dependency Resolver run after resolving every view handle to its
base signal through the alias bookkeeping table `base`. -/
def compileResolved (base : Nat → Nat) (ops : List Op) :
    Except CompileError (List Nat) :=
  compile (ops.map (resolveOp base))

/-- A chain of same-step dependency edges between consecutive elements. -/
def isChain (ops : List Op) : List Nat → Bool
  | a :: b :: rest => edgeB ops a b && isChain ops (b :: rest)
  | _ => true

/-! ### Resolver correctness lemmas -/

lemma default_op_eq : (default : Op) = ⟨[], [], [], []⟩ := rfl

lemma edgeB_lt_left {ops : List Op} {a b : Nat} (h : edgeB ops a b = true) :
    a < ops.length := by
  by_contra hlt
  rw [edgeB, List.getD_eq_default _ _ (Nat.le_of_not_lt hlt)] at h
  simp [sameStepWrites, default_op_eq] at h

lemma edgeB_lt_right {ops : List Op} {a b : Nat} (h : edgeB ops a b = true) :
    b < ops.length := by
  by_contra hlt
  rw [edgeB, List.getD_eq_default _ _ (Nat.le_of_not_lt hlt)] at h
  simp [sameStepWrites, default_op_eq] at h

/-- Everything `kahn` returns: the schedule is a permutation of the remaining
indices, no edge points backwards in it, and no scheduled operator has a
self-edge. -/
lemma kahn_spec (ops : List Op) :
    ∀ (fuel : Nat) (rem sched : List Nat), kahn ops fuel rem = some sched →
      sched.Perm rem ∧ sched.Pairwise (fun a b => edgeB ops b a = false) ∧
        ∀ x ∈ sched, edgeB ops x x = false := by
  intro fuel
  induction fuel with
  | zero =>
    intro rem sched h
    cases rem with
    | nil =>
      simp only [kahn, Option.some.injEq] at h
      subst h
      exact ⟨List.Perm.refl _, List.Pairwise.nil, by simp⟩
    | cons r rs => simp [kahn] at h
  | succ fuel ih =>
    intro rem sched h
    cases rem with
    | nil =>
      simp only [kahn, Option.some.injEq] at h
      subst h
      exact ⟨List.Perm.refl _, List.Pairwise.nil, by simp⟩
    | cons r rs =>
      cases hf : (r :: rs).find? (fun i => (r :: rs).all (fun j => !edgeB ops j i)) with
      | none => rw [kahn, hf] at h; simp at h
      | some i =>
        rw [kahn] at h
        simp only [hf] at h
        obtain ⟨t, hk, rfl⟩ := Option.map_eq_some'.mp h
        have hmem : i ∈ r :: rs := List.mem_of_find?_eq_some hf
        have hpred : ∀ j ∈ r :: rs, edgeB ops j i = false := by
          have hps := List.find?_some hf
          rw [List.all_eq_true] at hps
          intro j hj
          have := hps j hj
          simpa using this
        obtain ⟨hperm, hpw, hirr⟩ := ih _ _ hk
        have hsub : ∀ x ∈ t, x ∈ r :: rs := by
          intro x hx
          exact List.mem_of_mem_erase (hperm.mem_iff.mp hx)
        refine ⟨?_, ?_, ?_⟩
        · exact ((hperm.cons i).trans (List.perm_cons_erase hmem).symm)
        · refine List.Pairwise.cons ?_ hpw
          intro b hb
          exact hpred b (hsub b hb)
        · intro x hx
          rcases List.mem_cons.mp hx with hx | hx
          · subst hx; exact hpred x hmem
          · exact hirr x hx

/-- In a Kahn-produced schedule, every dependency edge goes forwards. -/
lemma sched_lt_of_edge {ops : List Op} {sched : List Nat}
    (hperm : sched.Perm (List.range ops.length))
    (hpw : sched.Pairwise (fun a b => edgeB ops b a = false))
    (hirr : ∀ x ∈ sched, edgeB ops x x = false)
    {a b : Nat} (hedge : edgeB ops a b = true) :
    sched.indexOf a < sched.indexOf b := by
  have hnd : sched.Nodup := hperm.nodup_iff.mpr (List.nodup_range _)
  have ha : a ∈ sched := hperm.mem_iff.mpr (List.mem_range.mpr (edgeB_lt_left hedge))
  have hb : b ∈ sched := hperm.mem_iff.mpr (List.mem_range.mpr (edgeB_lt_right hedge))
  have hab : a ≠ b := by
    intro hcontra
    subst hcontra
    rw [hirr a ha] at hedge
    exact Bool.false_ne_true hedge
  have hia : sched.indexOf a < sched.length := List.indexOf_lt_length.mpr ha
  have hib : sched.indexOf b < sched.length := List.indexOf_lt_length.mpr hb
  rcases Nat.lt_trichotomy (sched.indexOf a) (sched.indexOf b) with h | h | h
  · exact h
  · exfalso
    apply hab
    have h1 := List.indexOf_get hia
    have h2 := List.indexOf_get hib
    rw [← h1, ← h2]
    exact congrArg sched.get (Fin.ext h)
  · exfalso
    have := (List.pairwise_iff_get.mp hpw) ⟨sched.indexOf b, hib⟩ ⟨sched.indexOf a, hia⟩ h
    rw [List.indexOf_get hia, List.indexOf_get hib] at this
    rw [this] at hedge
    exact Bool.false_ne_true hedge

lemma getD_mem_of_lt {α : Type} {l : List α} {i : Nat} (h : i < l.length) (d : α) :
    l.getD i d ∈ l := by
  rw [List.getD_eq_get l d h]
  exact List.get_mem l _ _

lemma allSignals_cons (o : Op) (rest : List Op) :
    allSignals (o :: rest) =
      o.reads ++ (o.sets ++ (o.incs ++ (o.updates ++ allSignals rest))) := by
  simp [allSignals]

/-- Signals an operator sets are among the model's signals. -/
lemma mem_allSignals_of_sets {ops : List Op} {i s : Nat}
    (hi : i < ops.length) (hs : s ∈ (ops.getD i default).sets) :
    s ∈ allSignals ops := by
  induction ops generalizing i with
  | nil => simp at hi
  | cons o rest ihop =>
    rw [allSignals_cons]
    cases i with
    | zero =>
      simp only [List.getD_cons_zero] at hs
      exact List.mem_append_right _ (List.mem_append_left _ hs)
    | succ n =>
      simp only [List.getD_cons_succ] at hs
      have hmem : s ∈ allSignals rest := ihop (Nat.lt_of_succ_lt_succ hi) hs
      exact List.mem_append_right _ (List.mem_append_right _
        (List.mem_append_right _ (List.mem_append_right _ hmem)))

lemma two_le_length_of_two_mem {l : List Nat} {i j : Nat}
    (hnd : l.Nodup) (hi : i ∈ l) (hj : j ∈ l) (hij : i ≠ j) : 2 ≤ l.length := by
  cases l with
  | nil => simp at hi
  | cons a t =>
    cases t with
    | nil =>
      simp only [List.mem_singleton] at hi hj
      exact absurd (hi.trans hj.symm) hij
    | cons b t2 =>
      simp only [List.length_cons]
      omega

/-- Two distinct setters of the same signal trip the multiple-setter check. -/
lemma hasMultipleSetters_of {ops : List Op} {s i j : Nat}
    (hi : i < ops.length) (hj : j < ops.length) (hij : i ≠ j)
    (h1 : s ∈ (ops.getD i default).sets) (h2 : s ∈ (ops.getD j default).sets) :
    hasMultipleSetters ops = true := by
  rw [hasMultipleSetters, List.any_eq_true]
  refine ⟨s, mem_allSignals_of_sets hi h1, ?_⟩
  rw [decide_eq_true_iff]
  have hmi : i ∈ settersOf ops s := by
    rw [settersOf, List.mem_filter]
    exact ⟨List.mem_range.mpr hi, by simpa using h1⟩
  have hmj : j ∈ settersOf ops s := by
    rw [settersOf, List.mem_filter]
    exact ⟨List.mem_range.mpr hj, by simpa using h2⟩
  have hnd : (settersOf ops s).Nodup := List.Nodup.filter _ (List.nodup_range _)
  exact two_le_length_of_two_mem hnd hmi hmj hij

/-- Splitting a successful compile into its constituent facts. -/
lemma compile_ok {ops : List Op} {sched : List Nat}
    (h : compile ops = .ok sched) :
    hasMultipleSetters ops = false ∧ hasUnsetRead ops = false ∧
      kahn ops ops.length (List.range ops.length) = some sched := by
  rw [compile] at h
  cases hms : hasMultipleSetters ops with
  | true => rw [hms] at h; simp at h
  | false =>
    rw [hms] at h
    cases hur : hasUnsetRead ops with
    | true => rw [hur] at h; simp at h
    | false =>
      rw [hur] at h
      simp only [Bool.false_eq_true, if_false] at h
      cases hk : kahn ops ops.length (List.range ops.length) with
      | none => rw [hk] at h; simp at h
      | some t =>
        rw [hk] at h
        simp only [Except.ok.injEq] at h
        subst h
        exact ⟨rfl, rfl, rfl⟩

/-- Along a chain of dependency edges, schedule positions strictly increase. -/
lemma chain_indexOf_lt {ops : List Op} {sched : List Nat}
    (hperm : sched.Perm (List.range ops.length))
    (hpw : sched.Pairwise (fun a b => edgeB ops b a = false))
    (hirr : ∀ x ∈ sched, edgeB ops x x = false) :
    ∀ (xs : List Nat) (x : Nat), xs ≠ [] → isChain ops (x :: xs) = true →
      sched.indexOf x < sched.indexOf (xs.getLastD x) := by
  intro xs
  induction xs with
  | nil => intro x hne _; exact absurd rfl hne
  | cons y ys ihc =>
    intro x _ hch
    simp only [isChain, Bool.and_eq_true] at hch
    obtain ⟨he, hch2⟩ := hch
    rw [List.getLastD_cons]
    cases ys with
    | nil => exact sched_lt_of_edge hperm hpw hirr he
    | cons z zs =>
      exact lt_trans (sched_lt_of_edge hperm hpw hirr he)
        (ihc y (by simp) hch2)

lemma getLastD_append_singleton (l : List Nat) (a d : Nat) :
    (l ++ [a]).getLastD d = a := by
  induction l generalizing d with
  | nil => rfl
  | cons x t ihl =>
    rw [List.cons_append, List.getLastD_cons]
    exact ihl x

/-- On a cyclic model (after the setter and read checks pass), the
topological sort returns no schedule. -/
lemma kahn_none_of_cycle {ops : List Op} {a : Nat} {l : List Nat}
    (hcy : isChain ops (a :: (l ++ [a])) = true) :
    kahn ops ops.length (List.range ops.length) = none := by
  cases hk : kahn ops ops.length (List.range ops.length) with
  | none => rfl
  | some sched =>
    exfalso
    obtain ⟨hperm, hpw, hirr⟩ := kahn_spec ops _ _ _ hk
    have hlt := chain_indexOf_lt hperm hpw hirr (l ++ [a]) a (by simp) hcy
    rw [getLastD_append_singleton] at hlt
    exact lt_irrefl _ hlt

lemma getD_map_of_lt {α β : Type} (f : α → β) {l : List α} {i : Nat}
    (h : i < l.length) (d : β) (d0 : α) :
    (l.map f).getD i d = f (l.getD i d0) := by
  rw [List.getD_eq_get _ _ (by simpa using h), List.getD_eq_get _ _ h]
  simp

/-- With no dependency edges at all, the topological sort keeps insertion
order. -/
lemma kahn_no_edges {ops : List Op} (hall : ∀ i j, edgeB ops i j = false) :
    ∀ (fuel : Nat) (rem : List Nat), rem.length ≤ fuel →
      kahn ops fuel rem = some rem := by
  intro fuel
  induction fuel with
  | zero =>
    intro rem h
    cases rem with
    | nil => rfl
    | cons r rs => simp at h
  | succ fuel ih =>
    intro rem h
    cases rem with
    | nil => rfl
    | cons r rs =>
      have hp : (fun i => (r :: rs).all (fun j => !edgeB ops j i)) r = true := by
        simp only [List.all_eq_true]
        intro j _
        simp [hall j r]
      have hlen : rs.length ≤ fuel := by
        simp only [List.length_cons] at h
        omega
      have hf : (r :: rs).find?
          (fun i => (r :: rs).all (fun j => !edgeB ops j i)) = some r :=
        List.find?_cons_of_pos _ hp
      rw [kahn, hf]
      show Option.map (fun t => r :: t) (kahn ops fuel ((r :: rs).erase r)) =
        some (r :: rs)
      rw [List.erase_cons_head, ih rs hlen]
      rfl

/-! ### Claim theorems about the Dependency Resolver -/

/-- C1: for every model the resolver compiles, the schedule places every
setter of a signal strictly before every same-step reader of that signal,
and each signal has at most one setter. -/
theorem resolver_schedule_sound (ops : List Op) (sched : List Nat) (s i j : Nat)
    (h : compile ops = Except.ok sched)
    (hi : i < ops.length) (hj : j < ops.length)
    (hset : s ∈ (ops.getD i default).sets) :
    (s ∈ (ops.getD j default).reads → sched.indexOf i < sched.indexOf j) ∧
      (s ∈ (ops.getD j default).sets → i = j) := by
  obtain ⟨hms, _hur, hk⟩ := compile_ok h
  obtain ⟨hperm, hpw, hirr⟩ := kahn_spec ops _ _ _ hk
  constructor
  · intro hread
    have he : edgeB ops i j = true := by
      rw [edgeB, Bool.or_eq_true]
      left
      rw [List.any_eq_true]
      refine ⟨s, ?_, by simpa using hread⟩
      exact List.mem_append_left _ hset
    exact sched_lt_of_edge hperm hpw hirr he
  · intro hset2
    by_contra hij
    rw [hasMultipleSetters_of hi hj hij hset hset2] at hms
    exact Bool.true_eq_false.mp hms

/-- Concrete valid model for the C1 witness: operator 0 sets signal 0,
operator 1 reads it. -/
def witnessOps : List Op := [⟨[], [0], [], []⟩, ⟨[0], [], [], []⟩]

/-- Witness for C1 at a concrete model. -/
theorem resolver_schedule_sound_w :
    compile witnessOps = Except.ok [0, 1] ∧ 0 < witnessOps.length ∧
      1 < witnessOps.length ∧ 0 ∈ (witnessOps.getD 0 default).sets ∧
      ((0 ∈ (witnessOps.getD 1 default).reads →
          [0, 1].indexOf 0 < [0, 1].indexOf 1) ∧
        (0 ∈ (witnessOps.getD 1 default).sets → 0 = 1)) :=
  ⟨rfl, by decide, by decide, by decide,
    resolver_schedule_sound witnessOps [0, 1] 0 0 1 rfl (by decide) (by decide)
      (by decide)⟩

/-- Concrete model refuting C3 as literally stated: operators 0 and 1 form a
same-step read/write cycle, but operator 2 also sets signal 1, so the
resolver reports the multiple-setter failure, not the cyclic one. -/
def cycOps : List Op := [⟨[0], [1], [], []⟩, ⟨[1], [0], [], []⟩, ⟨[], [1], [], []⟩]

/-- Counterexample for C3: a model containing a same-step cycle whose
compilation fails, but with `MultipleSetterError` rather than
`CyclicDependencyError`. -/
theorem cycle_claim_counterexample :
    isChain cycOps [0, 1, 0] = true ∧
      compile cycOps = Except.error CompileError.MultipleSetterError ∧
      compile cycOps ≠ Except.error CompileError.CyclicDependencyError := by
  refine ⟨by decide, rfl, ?_⟩
  intro hcontra
  have h2 : Except.error (ε := CompileError) (α := List Nat)
      CompileError.MultipleSetterError = Except.error
      CompileError.CyclicDependencyError :=
    (rfl : compile cycOps = _).symm.trans hcontra
  have h3 := Except.error.inj h2
  exact absurd h3 (by decide)

/-- C3 (amended): a model whose same-step read/write edges contain a cycle
never compiles to a schedule; when it also passes the multiple-setter and
unset-read checks (which the spec's algorithm runs first), the failure is
`CyclicDependencyError`. -/
theorem cycle_rejection (ops : List Op) (a : Nat) (l : List Nat)
    (hms : hasMultipleSetters ops = false) (hur : hasUnsetRead ops = false)
    (hcy : isChain ops (a :: (l ++ [a])) = true) :
    compile ops = Except.error CompileError.CyclicDependencyError := by
  rw [compile]
  simp only [hms, hur, Bool.false_eq_true, if_false]
  rw [kahn_none_of_cycle hcy]

/-- Witness for C3 (amended): the spec's own two-operator cycle. -/
theorem cycle_rejection_w :
    hasMultipleSetters [Op.mk [0] [1] [] [], Op.mk [1] [0] [] []] = false ∧
      hasUnsetRead [Op.mk [0] [1] [] [], Op.mk [1] [0] [] []] = false ∧
      isChain [Op.mk [0] [1] [] [], Op.mk [1] [0] [] []] (0 :: ([1] ++ [0])) = true ∧
      compile [Op.mk [0] [1] [] [], Op.mk [1] [0] [] []] =
        Except.error CompileError.CyclicDependencyError :=
  ⟨by decide, by decide, by decide,
    cycle_rejection [Op.mk [0] [1] [] [], Op.mk [1] [0] [] []] 0 [1]
      (by decide) (by decide) (by decide)⟩

/-- C4: two distinct operators that set view handles resolving to the same
base signal make compilation fail with `MultipleSetterError`, whatever their
kinds and order of declaration. -/
theorem multiple_setter_rejection (base : Nat → Nat) (ops : List Op)
    (i j s1 s2 : Nat) (hi : i < ops.length) (hj : j < ops.length) (hij : i ≠ j)
    (h1 : s1 ∈ (ops.getD i default).sets) (h2 : s2 ∈ (ops.getD j default).sets)
    (hb : base s1 = base s2) :
    compileResolved base ops = Except.error CompileError.MultipleSetterError := by
  rw [compileResolved, compile]
  have hms : hasMultipleSetters (ops.map (resolveOp base)) = true := by
    apply hasMultipleSetters_of (s := base s1) (i := i) (j := j)
      (by simpa using hi) (by simpa using hj) hij
    · rw [getD_map_of_lt (resolveOp base) hi default default]
      exact List.mem_map_of_mem base h1
    · rw [getD_map_of_lt (resolveOp base) hj default default, hb]
      exact List.mem_map_of_mem base h2
  simp only [hms, if_true]

/-- Witness for C4: operators 0 and 1 set views 2 and 0, which resolve to the
same base signal under `base n = n % 2`. -/
theorem multiple_setter_rejection_w :
    0 < ([Op.mk [] [2] [] [], Op.mk [] [0] [] []] : List Op).length ∧
      1 < ([Op.mk [] [2] [] [], Op.mk [] [0] [] []] : List Op).length ∧
      (0 : Nat) ≠ 1 ∧
      2 ∈ (([Op.mk [] [2] [] [], Op.mk [] [0] [] []] : List Op).getD 0 default).sets ∧
      0 ∈ (([Op.mk [] [2] [] [], Op.mk [] [0] [] []] : List Op).getD 1 default).sets ∧
      (fun n => n % 2) 2 = (fun n => n % 2) 0 ∧
      compileResolved (fun n => n % 2) [Op.mk [] [2] [] [], Op.mk [] [0] [] []] =
        Except.error CompileError.MultipleSetterError :=
  ⟨by decide, by decide, by decide, by decide, by decide, by decide,
    multiple_setter_rejection (fun n => n % 2)
      [Op.mk [] [2] [] [], Op.mk [] [0] [] []] 0 1 2 0 (by decide) (by decide)
      (by decide) (by decide) (by decide) (by decide)⟩

/-- In a sorted list, the element `find?` returns is the least one
satisfying the predicate. -/
lemma find?_sorted_min {p : Nat → Bool} {a : Nat} :
    ∀ {l : List Nat}, l.Pairwise (· < ·) → l.find? p = some a →
      ∀ b ∈ l, p b = true → a ≤ b := by
  intro l
  induction l with
  | nil =>
    intro _ hf
    simp at hf
  | cons x t iht =>
    intro hsort hf b hb hpb
    cases hpx : p x with
    | true =>
      rw [List.find?_cons_of_pos _ hpx] at hf
      obtain rfl := Option.some.inj hf
      rcases List.mem_cons.mp hb with rfl | hbt
      · exact le_refl _
      · exact le_of_lt ((List.pairwise_cons.mp hsort).1 b hbt)
    | false =>
      rw [List.find?_cons_of_neg _ (by simp [hpx])] at hf
      rcases List.mem_cons.mp hb with rfl | hbt
      · rw [hpb] at hpx
        exact absurd hpx (by simp)
      · exact iht (List.pairwise_cons.mp hsort).2 hf b hbt hpb

/-- Greedy tie-break invariant of the topological sort: on a strictly
sorted remaining list, whenever the sort emits an operator, that operator
is ready (no incoming edge from any not-yet-scheduled operator) and is the
least index among the not-yet-scheduled ready operators. -/
lemma kahn_greedy (ops : List Op) :
    ∀ (fuel : Nat) (rem sched : List Nat), rem.Pairwise (· < ·) →
      kahn ops fuel rem = some sched →
      ∀ pre i post, sched = pre ++ i :: post →
        (∀ j ∈ i :: post, edgeB ops j i = false) ∧
        (∀ k ∈ post, (∀ j ∈ i :: post, edgeB ops j k = false) → i < k) := by
  intro fuel
  induction fuel with
  | zero =>
    intro rem sched _ h pre i post hsplit
    cases rem with
    | nil =>
      simp only [kahn, Option.some.injEq] at h
      subst h
      simp at hsplit
    | cons r rs => simp [kahn] at h
  | succ fuel ih =>
    intro rem sched hsort h pre i post hsplit
    cases rem with
    | nil =>
      simp only [kahn, Option.some.injEq] at h
      subst h
      simp at hsplit
    | cons r rs =>
      cases hf : (r :: rs).find?
          (fun c => (r :: rs).all (fun j => !edgeB ops j c)) with
      | none => rw [kahn, hf] at h; simp at h
      | some x =>
        rw [kahn] at h
        simp only [hf] at h
        obtain ⟨t, hk, rfl⟩ := Option.map_eq_some'.mp h
        have hmem : x ∈ r :: rs := List.mem_of_find?_eq_some hf
        have hpred : ∀ j ∈ r :: rs, edgeB ops j x = false := by
          have hps := List.find?_some hf
          rw [List.all_eq_true] at hps
          intro j hj
          simpa using hps j hj
        have hperm_t : t.Perm ((r :: rs).erase x) := (kahn_spec ops fuel _ t hk).1
        have hsort_e : ((r :: rs).erase x).Pairwise (· < ·) :=
          List.Pairwise.sublist (List.erase_sublist x (r :: rs)) hsort
        have hnd : (r :: rs).Nodup := hsort.imp Nat.ne_of_lt
        cases pre with
        | nil =>
          simp only [List.nil_append] at hsplit
          obtain ⟨rfl, rfl⟩ := List.cons.inj hsplit
          constructor
          · intro j hj
            rcases List.mem_cons.mp hj with rfl | hjt
            · exact hpred _ hmem
            · exact hpred j
                (List.mem_of_mem_erase (hperm_t.mem_iff.mp hjt))
          · intro k hk2 hready
            have hkrem : k ∈ (r :: rs).erase x := hperm_t.mem_iff.mp hk2
            have hkne : k ≠ x := ((hnd.mem_erase_iff).mp hkrem).1
            have hkmem : k ∈ r :: rs := List.mem_of_mem_erase hkrem
            have hpk : (fun c => (r :: rs).all (fun j => !edgeB ops j c)) k
                = true := by
              simp only [List.all_eq_true]
              intro j hj
              by_cases hjx : j = x
              · subst hjx
                simpa using hready j (List.mem_cons_self _ _)
              · have hj1 : j ∈ (r :: rs).erase x :=
                  (hnd.mem_erase_iff).mpr ⟨hjx, hj⟩
                have hj2 : j ∈ t := hperm_t.mem_iff.mpr hj1
                simpa using hready j (List.mem_cons_of_mem _ hj2)
            have hle := find?_sorted_min hsort hf k hkmem hpk
            exact lt_of_le_of_ne hle (Ne.symm hkne)
        | cons p0 pre2 =>
          simp only [List.cons_append] at hsplit
          obtain ⟨rfl, hteq⟩ := List.cons.inj hsplit
          exact ih ((r :: rs).erase x) t hsort_e hk pre2 i post hteq

/-- The model refuting C5 as frozen: operator 0 reads signal 5, operator 1
sets signal 6, operator 2 sets signal 5.  Operators 0 and 1 have no
ordering constraint, yet operator 0 is momentarily blocked by operator 2,
so the resolver emits 1 before 0 — against insertion order. -/
def tieOps : List Op := [⟨[5], [], [], []⟩, ⟨[], [6], [], []⟩, ⟨[], [5], [], []⟩]

/-- Counterexample for C5 as frozen: `tieOps` compiles to `[1, 2, 0]`;
operators 0 and 1 are related by no edge and no edge chain in either
direction (the only possible chains through the third operator are dead),
yet the schedule places 1 before 0, while insertion order has 0 before 1. -/
theorem tie_break_counterexample :
    compile tieOps = Except.ok [1, 2, 0] ∧
      edgeB tieOps 0 1 = false ∧ edgeB tieOps 1 0 = false ∧
      isChain tieOps [0, 2, 1] = false ∧ isChain tieOps [1, 2, 0] = false ∧
      edgeB tieOps 2 0 = true ∧
      ([1, 2, 0] : List Nat).indexOf 1 < ([1, 2, 0] : List Nat).indexOf 0 :=
  ⟨rfl, by decide, by decide, by decide, by decide, by decide, by decide⟩

/-- C5 (amended): compilation is deterministic — in this embedding
`compile` is a pure function of the operator list, so recompiling the same
list yields the identical schedule by construction — and ties are broken by
insertion order in the greedy, per-step sense: every operator the resolver
emits is ready (no incoming same-step edge from a not-yet-scheduled
operator) and is the least index among the not-yet-scheduled ready
operators.  A pair with no mutual ordering constraint may still appear out
of insertion order when a third operator temporarily blocks one of them. -/
theorem compile_tie_break (ops : List Op) (sched : List Nat)
    (h : compile ops = Except.ok sched) :
    ∀ pre i post, sched = pre ++ i :: post →
      (∀ j ∈ i :: post, edgeB ops j i = false) ∧
      (∀ k ∈ post, (∀ j ∈ i :: post, edgeB ops j k = false) → i < k) := by
  obtain ⟨_, _, hk⟩ := compile_ok h
  exact kahn_greedy ops ops.length (List.range ops.length) sched
    (List.pairwise_lt_range ops.length) hk

/-- Witness for C5 (amended), at the very model of the counterexample: each
emitted operator of the schedule `[1, 2, 0]` is the least ready index at
its turn. -/
theorem compile_tie_break_w :
    compile tieOps = Except.ok [1, 2, 0] ∧
      ∀ pre i post, ([1, 2, 0] : List Nat) = pre ++ i :: post →
        (∀ j ∈ i :: post, edgeB tieOps j i = false) ∧
        (∀ k ∈ post, (∀ j ∈ i :: post, edgeB tieOps j k = false) → i < k) :=
  ⟨rfl, compile_tie_break tieOps [1, 2, 0] rfl⟩

/-! ### Execution layer: Stepper, Probe Recorder, Operator Merger -/

/-- Modelled from the spec: a minimal catalogue of concrete operators over
scalar signals (the library of transfer functions is an external
collaborator; the spec's core only needs operators classified by access
kind).  Values are idealized as integers.  `updateAdd` is the
update-classified rule `x ← x + v` whose write becomes visible only on the
following step (spec section 3, "updates"). -/
inductive OpKind where
  | copyTo (src dst : Nat)
  | setConst (dst : Nat) (v : Int)
  | incConst (dst : Nat) (v : Int)
  | addInto (src dst : Nat)
  | updateAdd (s : Nat) (v : Int)
deriving DecidableEq

/-- The access sets an executable operator declares (spec section 3). -/
def accessOf : OpKind → Op
  | .copyTo src dst => ⟨[src], [dst], [], []⟩
  | .setConst dst _ => ⟨[], [dst], [], []⟩
  | .incConst dst _ => ⟨[], [], [dst], []⟩
  | .addInto src dst => ⟨[src], [], [dst], []⟩
  | .updateAdd s _ => ⟨[], [], [], [s]⟩

/-- Pointwise store update. -/
def updFn {α : Type} (f : Nat → α) (k : Nat) (v : α) : Nat → α :=
  fun n => if n = k then v else f n

/-- Modelled from the spec: the effect of one operator on the pair of the
current-step store and the staged update buffer.  Sets and increments
mutate the current store in place; an update computes from the current
store but writes only into the staging buffer, for consumption in the next
step (spec section 3). -/
def runOp (o : OpKind) (cs : (Nat → Int) × (Nat → Option Int)) :
    (Nat → Int) × (Nat → Option Int) :=
  match o with
  | .copyTo src dst => (updFn cs.1 dst (cs.1 src), cs.2)
  | .setConst dst v => (updFn cs.1 dst v, cs.2)
  | .incConst dst v => (updFn cs.1 dst (cs.1 dst + v), cs.2)
  | .addInto src dst => (updFn cs.1 dst (cs.1 dst + cs.1 src), cs.2)
  | .updateAdd s v => (cs.1, updFn cs.2 s (some (cs.1 s + v)))

/-- Executing a schedule: operators run strictly in the resolved linear
order (spec section 5). -/
def runOps (sched : List OpKind) (cs : (Nat → Int) × (Nat → Option Int)) :
    (Nat → Int) × (Nat → Option Int) :=
  sched.foldl (fun acc o => runOp o acc) cs

/-- Modelled from the spec: a Probe names a target signal, a sampling
period in steps, and a smoothing-filter state with its transfer function;
it owns an append-only time series (spec sections 3 and 4.5). -/
structure Probe where
  target : Nat
  period : Nat
  filterInit : Int
  filterStep : Int → Int → Int

instance : Inhabited Probe := ⟨⟨0, 1, 0, fun _ v => v⟩⟩

/-- Modelled from the spec: `record(probe, current_step)` — invoked once per
step after all operators finish; when `current_step mod period = 0` it
advances the filter state exactly once on the target signal's
post-operator value and appends the result to the time series; otherwise it
leaves the probe state untouched.  It never writes any signal (spec
section 4.5). -/
def recordProbe (k : Nat) (cur : Nat → Int) (p : Probe)
    (ps : Int × List Int) : Int × List Int :=
  if k % p.period = 0 then
    ((p.filterStep ps.1 (cur p.target)), ps.2 ++ [p.filterStep ps.1 (cur p.target)])
  else ps

/-- Modelled from the spec: the mutable state a compiled model steps over —
the signal store, the staged update buffer, the step counter (the time
signal in units of steps), and one filter-state/time-series pair per probe
(spec sections 4.4 and 4.5). -/
structure SimState where
  cur : Nat → Int
  staged : Nat → Option Int
  t : Nat
  probeStates : List (Int × List Int)

/-- Value of a signal as readable at the start of a step: the update staged
in the previous step if any, else the value left in the store (spec
section 3, "updates"). -/
def mergedStore (st : SimState) : Nat → Int :=
  fun n => (st.staged n).getD (st.cur n)

/-- Modelled from the spec: greedy fusion grouping of the Operator Merger —
adjacent operators of the same computational kind touching disjoint
signal sets are batched into one fused group; fusion never reorders
operators across a hazard and keeps each group's members in their original
relative position range (spec section 4.3). -/
def signalsOf (o : OpKind) : List Nat :=
  (accessOf o).reads ++ (accessOf o).sets ++ (accessOf o).incs ++ (accessOf o).updates

/-- Same computational kind (spec section 4.3 condition (a)). -/
def sameKind : OpKind → OpKind → Bool
  | .copyTo _ _, .copyTo _ _ => true
  | .setConst _ _, .setConst _ _ => true
  | .incConst _ _, .incConst _ _ => true
  | .addInto _ _, .addInto _ _ => true
  | .updateAdd _ _, .updateAdd _ _ => true
  | _, _ => false

/-- Mutually independent: no shared signal at all, hence no dependency edge
in either direction (spec section 4.3 conditions (b) and (c)). -/
def independentOps (a b : OpKind) : Bool :=
  (signalsOf a).all (fun s => !((signalsOf b).any (fun x => x == s)))

/-- Fusion-legality predicate of the Operator Merger (spec section 4.3). -/
def fusable (a b : OpKind) : Bool :=
  sameKind a b && independentOps a b

/-- The Operator Merger's grouping pass: batch maximal runs of adjacent,
mutually fusable operators.  Each group is executed as one fused operator
whose effect is the batched effects of its members in order. -/
def mergeGroups : List OpKind → List (List OpKind)
  | [] => []
  | a :: rest =>
    match mergeGroups rest with
    | [] => [[a]]
    | g :: gs => if g.all (fun b => fusable a b) then (a :: g) :: gs
                 else [a] :: g :: gs

/-- Whether the schedule contains at least two fusable operators. -/
def hasFusablePair : List OpKind → Bool
  | [] => false
  | a :: rest => rest.any (fun b => fusable a b) || hasFusablePair rest

/-- Executing the (optionally merged) schedule: with the Merger enabled the
fused groups run group by group, each group performing its members' batched
effects; with it disabled the plain schedule runs operator by operator
(spec section 4.3). -/
def execSched (useMerger : Bool) (sched : List OpKind)
    (cs : (Nat → Int) × (Nat → Option Int)) :
    (Nat → Int) × (Nat → Option Int) :=
  match useMerger with
  | true => (mergeGroups sched).foldl (fun acc g => runOps g acc) cs
  | false => runOps sched cs

/-- Modelled from the spec: one step of the Stepper (spec section 4.4) —
apply the updates staged in the previous step, execute the fixed schedule
once in order, advance the time signal by one step, then invoke the Probe
Recorder once per probe. -/
def stepSimM (useMerger : Bool) (sched : List OpKind) (probes : List Probe)
    (st : SimState) : SimState :=
  let start := mergedStore st
  let out := execSched useMerger sched (start, fun _ => none)
  { cur := out.1
    staged := out.2
    t := st.t + 1
    probeStates := List.zipWith (recordProbe st.t out.1) probes st.probeStates }

/-- The Stepper with the Operator Merger disabled (the reference
semantics). -/
def stepSim (sched : List OpKind) (probes : List Probe) (st : SimState) :
    SimState :=
  stepSimM false sched probes st

/-- Iterated stepping: `simulateM u sched probes n st` is the state after
`n` steps. -/
def simulateM (useMerger : Bool) (sched : List OpKind) (probes : List Probe) :
    Nat → SimState → SimState
  | 0, st => st
  | n + 1, st => stepSimM useMerger sched probes (simulateM useMerger sched probes n st)

/-- Iterated stepping with the Merger disabled. -/
def simulate (sched : List OpKind) (probes : List Probe) :
    Nat → SimState → SimState :=
  simulateM false sched probes

/-- Modelled from the spec: the state machine of the Stepper (spec
section 4.4). -/
inductive Phase where
  | Uninit
  | Ready
  | Running
  | Halted
deriving DecidableEq

/-- The only failure `step()` raises in this model: being called outside
the `Ready`/`Running` states. -/
inductive StepError where
  | InvalidState
deriving DecidableEq

/-- A simulator handle: the state-machine phase plus the mutable state. -/
structure Stepper where
  phase : Phase
  st : SimState

/-- Modelled from the spec: `step()` — valid only in `Ready`/`Running`;
executes the schedule once, advances time, records probes and transitions
to `Running` (spec section 4.4). -/
def stepE (sched : List OpKind) (probes : List Probe) (s : Stepper) :
    Except StepError Stepper :=
  match s.phase with
  | .Ready => .ok ⟨.Running, stepSim sched probes s.st⟩
  | .Running => .ok ⟨.Running, stepSim sched probes s.st⟩
  | _ => .error .InvalidState

/-- `step()` iterated `n` times, propagating the first failure. -/
def runN (sched : List OpKind) (probes : List Probe) :
    Nat → Stepper → Except StepError Stepper
  | 0, s => .ok s
  | n + 1, s =>
    match stepE sched probes s with
    | .ok s2 => runN sched probes n s2
    | .error e => .error e

/-- The number of steps a duration spans: `ceil(duration / step_duration)`
(spec section 4.4). -/
def stepsFor (duration dt : ℚ) : Nat := (⌈duration / dt⌉).toNat

/-- Modelled from the spec: `run(duration)` calls `step()` exactly
`ceil(duration / step_duration)` times (spec section 4.4). -/
def runDur (sched : List OpKind) (probes : List Probe) (s : Stepper)
    (duration dt : ℚ) : Except StepError Stepper :=
  runN sched probes (stepsFor duration dt) s

/-- Modelled from the spec: `close()` transitions the state machine to
`Halted`, touching nothing else (spec section 4.4). -/
def close (s : Stepper) : Stepper := ⟨Phase.Halted, s.st⟩

/-- Modelled from the spec: the fresh state a compiled model starts from —
all signals at their initial value (zero here), nothing staged, time zero,
every probe's filter state at its initial value with an empty series. -/
def initState (probes : List Probe) : SimState :=
  ⟨fun _ => 0, fun _ => none, 0, probes.map (fun p => (p.filterInit, []))⟩

/-- `probe_data`: the recorded time series of probe `i` (spec section 6). -/
def probeData (s : Stepper) (i : Nat) : List Int :=
  (s.st.probeStates.getD i (0, [])).2

/-- Modelled from the spec: the simulator's time range — one time point per
executed step, at the end of that step (the notebook pairs `sim.trange()`
index-for-index with each default-period probe's samples). -/
def trange (dt : ℚ) (s : Stepper) : List ℚ :=
  (List.range s.st.t).map (fun k : Nat => ((k : ℚ) + 1) * dt)

/-! ### The concrete single-update-operator model of C2 -/

/-- The single update operator `x ← x + 1` on signal 0. -/
def c2sched : List OpKind := [OpKind.updateAdd 0 1]

/-- One unfiltered probe on signal 0, sampled every step. -/
def c2probes : List Probe := [⟨0, 1, 0, fun _ v => v⟩]

/-- The model's initial state: signal 0 holds `0`. -/
def c2init : SimState := initState c2probes

/-! ### Execution-layer lemmas -/

lemma stepSim_cur (sched : List OpKind) (probes : List Probe) (st : SimState) :
    (stepSim sched probes st).cur =
      (runOps sched (mergedStore st, fun _ => none)).1 := rfl

lemma stepSim_staged (sched : List OpKind) (probes : List Probe) (st : SimState) :
    (stepSim sched probes st).staged =
      (runOps sched (mergedStore st, fun _ => none)).2 := rfl

lemma stepSim_t (sched : List OpKind) (probes : List Probe) (st : SimState) :
    (stepSim sched probes st).t = st.t + 1 := rfl

lemma stepSim_probeStates (sched : List OpKind) (probes : List Probe)
    (st : SimState) :
    (stepSim sched probes st).probeStates =
      List.zipWith
        (recordProbe st.t (runOps sched (mergedStore st, fun _ => none)).1)
        probes st.probeStates := rfl

lemma recordProbe_period_one (k : Nat) (cur : Nat → Int) (fs : Int)
    (series : List Int) :
    recordProbe k cur ⟨0, 1, 0, fun _ v => v⟩ (fs, series) =
      (cur 0, series ++ [cur 0]) := by
  simp [recordProbe, Nat.mod_one]

/-- State invariant of the C2 model after at least one step: the readable
value of signal 0 during step `k` is `k`, step `k` stages `k + 1` for the
next step, and the probe has recorded `0, 1, …, k`. -/
lemma c2_invariant (k : Nat) :
    (simulate c2sched c2probes (k + 1) c2init).cur 0 = Int.ofNat k ∧
      (simulate c2sched c2probes (k + 1) c2init).staged 0 =
        some (Int.ofNat (k + 1)) ∧
      (simulate c2sched c2probes (k + 1) c2init).probeStates =
        [(Int.ofNat k, (List.range (k + 1)).map Int.ofNat)] := by
  induction k with
  | zero => exact ⟨rfl, rfl, rfl⟩
  | succ k ih =>
    obtain ⟨ihc, ihs, ihp⟩ := ih
    have hstep : simulate c2sched c2probes (k + 1 + 1) c2init =
        stepSim c2sched c2probes (simulate c2sched c2probes (k + 1) c2init) := rfl
    set s := simulate c2sched c2probes (k + 1) c2init with hs
    have hmerged : mergedStore s 0 = Int.ofNat (k + 1) := by
      rw [mergedStore, ihs]
      rfl
    have hrun : runOps c2sched (mergedStore s, fun _ => none) =
        (mergedStore s,
          updFn (fun _ => none) 0 (some (mergedStore s 0 + 1))) := rfl
    refine ⟨?_, ?_, ?_⟩
    · rw [hstep, stepSim_cur, hrun]
      exact hmerged
    · rw [hstep, stepSim_staged, hrun]
      show updFn (fun _ => none) 0 (some (mergedStore s 0 + 1)) 0 = _
      rw [updFn]
      simp only [if_pos rfl, hmerged]
      rfl
    · rw [hstep, stepSim_probeStates, hrun, ihp]
      show [recordProbe s.t (mergedStore s) ⟨0, 1, 0, fun _ v => v⟩
        (Int.ofNat k, (List.range (k + 1)).map Int.ofNat)] = _
      rw [recordProbe_period_one, hmerged]
      rw [List.range_succ (n := k + 1), List.map_append]
      rfl

/-- C2: in the single-operator model with one updates-classified signal
initialized to 0 and update rule `x ← x + 1`, the probe samples recorded
after steps `0..n` are exactly `0, 1, …, n`; the value readable at the end
of step `n` is the previous step's write `n`, while step `n`'s own write
`n + 1` sits staged for the next step only. -/
theorem update_semantics (n : Nat) :
    ((simulate c2sched c2probes (n + 1) c2init).probeStates.getD 0 (0, [])).2 =
        (List.range (n + 1)).map Int.ofNat ∧
      (simulate c2sched c2probes (n + 1) c2init).cur 0 = Int.ofNat n ∧
      (simulate c2sched c2probes (n + 1) c2init).staged 0 =
        some (Int.ofNat (n + 1)) := by
  obtain ⟨hc, hs, hp⟩ := c2_invariant n
  refine ⟨?_, hc, hs⟩
  rw [hp]
  rfl

/-! ### C8: commutativity of independent incrementers -/

/-- The constant an increment operator adds. -/
def incVal : OpKind → Int
  | .incConst _ v => v
  | _ => 0

lemma runOps_incs (x : Nat) :
    ∀ (l : List OpKind) (cs : (Nat → Int) × (Nat → Option Int)),
      (∀ o ∈ l, ∃ v, o = OpKind.incConst x v) →
      (runOps l cs).1 x = cs.1 x + (l.map incVal).sum := by
  intro l
  induction l with
  | nil =>
    intro cs _
    simp [runOps]
  | cons o rest ihl =>
    intro cs hall
    obtain ⟨v, rfl⟩ := hall _ (List.mem_cons_self o rest)
    have hrec := ihl (runOp (OpKind.incConst x v) cs)
      (fun o ho => hall o (List.mem_cons_of_mem _ ho))
    have hcons : runOps (OpKind.incConst x v :: rest) cs =
        runOps rest (runOp (OpKind.incConst x v) cs) := rfl
    rw [hcons, hrec]
    have hval : (runOp (OpKind.incConst x v) cs).1 x = cs.1 x + v := by
      rw [runOp]
      show updFn cs.1 x (cs.1 x + v) x = cs.1 x + v
      rw [updFn]
      simp
    rw [hval]
    simp only [List.map_cons, List.sum_cons, incVal]
    omega

/-- C8: three mutually independent operators incrementing signal 0 by the
constants 1, 2, 3, run in any relative order, leave the signal at 6 after
one step. -/
theorem increment_commutativity (l : List OpKind)
    (hperm : l.Perm
      [OpKind.incConst 0 1, OpKind.incConst 0 2, OpKind.incConst 0 3]) :
    (stepSim l [] (initState [])).cur 0 = 6 := by
  have hall : ∀ o ∈ l, ∃ v, o = OpKind.incConst 0 v := by
    intro o ho
    have hmem := hperm.mem_iff.mp ho
    simp only [List.mem_cons, List.not_mem_nil, or_false] at hmem
    rcases hmem with h | h | h <;> exact ⟨_, h⟩
  have hsum : (l.map incVal).sum = 6 := by
    have hpm := (hperm.map incVal).sum_eq
    rw [hpm]
    decide
  rw [stepSim_cur]
  rw [runOps_incs 0 l (mergedStore (initState []), fun _ => none) hall, hsum]
  rfl

/-- Witness for C8: a shuffled order of the three incrementers. -/
theorem increment_commutativity_w :
    ([OpKind.incConst 0 2, OpKind.incConst 0 3, OpKind.incConst 0 1] : List OpKind).Perm
        [OpKind.incConst 0 1, OpKind.incConst 0 2, OpKind.incConst 0 3] ∧
      (stepSim [OpKind.incConst 0 2, OpKind.incConst 0 3, OpKind.incConst 0 1]
        [] (initState [])).cur 0 = 6 :=
  ⟨by decide,
    increment_commutativity
      [OpKind.incConst 0 2, OpKind.incConst 0 3, OpKind.incConst 0 1] (by decide)⟩

/-! ### C6: the Operator Merger is semantics-preserving -/

lemma mergeGroups_ne_nil (a : OpKind) (l : List OpKind) :
    mergeGroups (a :: l) ≠ [] := by
  rw [mergeGroups]
  cases mergeGroups l with
  | nil => simp
  | cons g gs =>
    show (if (g.all fun b => fusable a b) = true then (a :: g) :: gs
      else [a] :: g :: gs) ≠ []
    split <;> simp

lemma merged_run (l : List OpKind) :
    ∀ cs, (mergeGroups l).foldl (fun acc g => runOps g acc) cs = runOps l cs := by
  induction l with
  | nil => intro cs; rfl
  | cons a rest ihl =>
    intro cs
    cases hm : mergeGroups rest with
    | nil =>
      cases rest with
      | nil => rfl
      | cons b bt => exact absurd hm (mergeGroups_ne_nil b bt)
    | cons g gs =>
      have hruncons : runOps (a :: rest) cs = runOps rest (runOp a cs) := rfl
      have hih := ihl (runOp a cs)
      rw [hm] at hih
      rw [mergeGroups, hm]
      show List.foldl (fun acc gg => runOps gg acc) cs
          (if (g.all fun b => fusable a b) = true then (a :: g) :: gs
            else [a] :: g :: gs) =
        runOps (a :: rest) cs
      by_cases hfus : g.all (fun b => fusable a b) = true
      · rw [if_pos hfus]
        have hgrp : runOps (a :: g) cs = runOps g (runOp a cs) := rfl
        show gs.foldl (fun acc gg => runOps gg acc) (runOps (a :: g) cs) =
          runOps (a :: rest) cs
        rw [hgrp, hruncons, ← hih]
        rfl
      · rw [if_neg hfus]
        show (g :: gs).foldl (fun acc gg => runOps gg acc) (runOps [a] cs) =
          runOps (a :: rest) cs
        have hsingle : runOps [a] cs = runOp a cs := rfl
        rw [hsingle, hruncons, ← hih]

lemma stepSimM_merger_eq (sched : List OpKind) (probes : List Probe)
    (st : SimState) :
    stepSimM true sched probes st = stepSimM false sched probes st := by
  rw [stepSimM, stepSimM]
  have hexec : execSched true sched (mergedStore st, fun _ => none) =
      execSched false sched (mergedStore st, fun _ => none) := by
    rw [execSched, execSched]
    exact merged_run sched _
  rw [hexec]

lemma simulateM_merger_eq (sched : List OpKind) (probes : List Probe) :
    ∀ (n : Nat) (st : SimState),
      simulateM true sched probes n st = simulateM false sched probes n st := by
  intro n
  induction n with
  | zero => intro st; rfl
  | succ n ihn =>
    intro st
    show stepSimM true sched probes (simulateM true sched probes n st) =
      stepSimM false sched probes (simulateM false sched probes n st)
    rw [ihn st, stepSimM_merger_eq]

/-- C6: on any compiled model with at least two fusable operators, running
with the Operator Merger enabled and with it disabled records identical
probe output (exactly equal in the idealized integer arithmetic). -/
theorem fusion_transparency (sched : List OpKind) (probes : List Probe)
    (st : SimState) (n : Nat) (_hfus : hasFusablePair sched = true) :
    (simulateM true sched probes n st).probeStates =
      (simulateM false sched probes n st).probeStates := by
  rw [simulateM_merger_eq]

/-- Witness for C6: two independent same-kind incrementers with one probe. -/
theorem fusion_transparency_w :
    hasFusablePair [OpKind.incConst 0 1, OpKind.incConst 1 1] = true ∧
      (simulateM true [OpKind.incConst 0 1, OpKind.incConst 1 1] c2probes 2
          (initState c2probes)).probeStates =
        (simulateM false [OpKind.incConst 0 1, OpKind.incConst 1 1] c2probes 2
          (initState c2probes)).probeStates :=
  ⟨by decide,
    fusion_transparency [OpKind.incConst 0 1, OpKind.incConst 1 1] c2probes
      (initState c2probes) 2 (by decide)⟩

/-! ### C7: run(duration) -/

lemma runN_ok (sched : List OpKind) (probes : List Probe) :
    ∀ (n : Nat) (s : Stepper),
      (s.phase = Phase.Ready ∨ s.phase = Phase.Running) →
      ∃ s2, runN sched probes n s = .ok s2 ∧ s2.st.t = s.st.t + n ∧
        (s2.phase = Phase.Ready ∨ s2.phase = Phase.Running) := by
  intro n
  induction n with
  | zero =>
    intro s hp
    exact ⟨s, rfl, rfl, hp⟩
  | succ n ihn =>
    intro s hp
    have hstep : stepE sched probes s =
        .ok ⟨Phase.Running, stepSim sched probes s.st⟩ := by
      rcases hp with h | h <;> rw [stepE, h]
    rw [runN, hstep]
    obtain ⟨s2, h1, h2, h3⟩ :=
      ihn ⟨Phase.Running, stepSim sched probes s.st⟩ (Or.inr rfl)
    refine ⟨s2, h1, ?_, h3⟩
    have ht : (stepSim sched probes s.st).t = s.st.t + 1 := rfl
    rw [h2]
    show (stepSim sched probes s.st).t + n = s.st.t + (n + 1)
    rw [ht]
    omega

/-- C7: from `Ready` or `Running`, `run(duration)` with a positive duration
succeeds (it raises nothing `step()` would not), and executes exactly
`ceil(duration / step_duration)` steps — the step counter advances by that
number, which is at least one. -/
theorem run_duration (sched : List OpKind) (probes : List Probe) (s : Stepper)
    (duration dt : ℚ) (hphase : s.phase = Phase.Ready ∨ s.phase = Phase.Running)
    (hd : 0 < duration) (hdt : 0 < dt) :
    ∃ s2, runDur sched probes s duration dt = Except.ok s2 ∧
      s2.st.t = s.st.t + stepsFor duration dt ∧ 1 ≤ stepsFor duration dt := by
  obtain ⟨s2, h1, h2, _⟩ := runN_ok sched probes (stepsFor duration dt) s hphase
  refine ⟨s2, h1, h2, ?_⟩
  rw [stepsFor]
  have hpos : 0 < duration / dt := div_pos hd hdt
  have hceil : 0 < ⌈duration / dt⌉ := Int.ceil_pos.mpr hpos
  omega

/-- Witness for C7: an empty model run for duration 1 at step duration 1/2
executes two steps. -/
theorem run_duration_w :
    ((⟨Phase.Ready, initState []⟩ : Stepper).phase = Phase.Ready ∨
        (⟨Phase.Ready, initState []⟩ : Stepper).phase = Phase.Running) ∧
      (0 : ℚ) < 1 ∧ (0 : ℚ) < 1 / 2 ∧
      ∃ s2, runDur [] [] ⟨Phase.Ready, initState []⟩ 1 (1 / 2) = Except.ok s2 ∧
        s2.st.t = (⟨Phase.Ready, initState []⟩ : Stepper).st.t +
          stepsFor 1 (1 / 2) ∧ 1 ≤ stepsFor 1 (1 / 2) :=
  ⟨Or.inl rfl, by norm_num, by norm_num,
    run_duration [] [] ⟨Phase.Ready, initState []⟩ 1 (1 / 2) (Or.inl rfl)
      (by norm_num) (by norm_num)⟩

/-! ### C9: the Probe Recorder -/

lemma getD_zipWith {α β γ : Type} (f : α → β → γ) :
    ∀ (as2 : List α) (bs : List β) (i : Nat) (da : α) (db : β) (dc : γ),
      i < as2.length → i < bs.length →
      (List.zipWith f as2 bs).getD i dc = f (as2.getD i da) (bs.getD i db) := by
  intro as2
  induction as2 with
  | nil =>
    intro bs i da db dc h1 _
    simp at h1
  | cons a at2 iha =>
    intro bs i da db dc h1 h2
    cases bs with
    | nil => simp at h2
    | cons b bt =>
      cases i with
      | zero => rfl
      | succ m =>
        simp only [List.zipWith_cons_cons, List.getD_cons_succ]
        exact iha bt m da db dc (by simpa using h1) (by simpa using h2)

/-- C9: the Probe Recorder runs once per step after every operator has
finished — the sample it takes is the probe's filter applied to the
post-operator value of the target signal; it appends exactly one sample,
advancing the filter state exactly once, precisely when
`current_step mod sampling_period = 0` and leaves the probe untouched
otherwise; and probes never mutate simulation signals — the store and the
staged updates after a step are identical with and without probes
attached. -/
theorem probe_recording (sched : List OpKind) (probes : List Probe)
    (st : SimState) (i : Nat) (h1 : i < probes.length)
    (h2 : i < st.probeStates.length) :
    ((stepSim sched probes st).cur = (stepSim sched [] st).cur ∧
        (stepSim sched probes st).staged = (stepSim sched [] st).staged) ∧
      (st.t % (probes.getD i default).period = 0 →
        (stepSim sched probes st).probeStates.getD i (0, []) =
          ((probes.getD i default).filterStep
              (st.probeStates.getD i (0, [])).1
              ((runOps sched (mergedStore st, fun _ => none)).1
                (probes.getD i default).target),
            (st.probeStates.getD i (0, [])).2 ++
              [(probes.getD i default).filterStep
                (st.probeStates.getD i (0, [])).1
                ((runOps sched (mergedStore st, fun _ => none)).1
                  (probes.getD i default).target)])) ∧
      (st.t % (probes.getD i default).period ≠ 0 →
        (stepSim sched probes st).probeStates.getD i (0, []) =
          st.probeStates.getD i (0, [])) := by
  refine ⟨⟨rfl, rfl⟩, ?_, ?_⟩
  · intro hmod
    rw [stepSim_probeStates,
      getD_zipWith _ probes st.probeStates i default (0, []) (0, []) h1 h2,
      recordProbe, if_pos hmod]
  · intro hmod
    rw [stepSim_probeStates,
      getD_zipWith _ probes st.probeStates i default (0, []) (0, []) h1 h2,
      recordProbe, if_neg hmod]

/-- Concrete schedule for the C9 witness: one setter of signal 0. -/
def w9sched : List OpKind := [OpKind.setConst 0 5]

/-- Concrete probe list for the C9 witness: a period-2 filtered probe on
signal 0. -/
def w9probes : List Probe := [⟨0, 2, 0, fun s v => s + v⟩]

/-- Concrete state for the C9 witness, sitting at step 0. -/
def w9st : SimState := ⟨fun _ => 0, fun _ => none, 0, [(0, [])]⟩

/-- Witness for C9: the one-setter schedule observed by the period-2 probe
at step 0. -/
theorem probe_recording_w :
    0 < w9probes.length ∧ 0 < w9st.probeStates.length ∧
      (((stepSim w9sched w9probes w9st).cur = (stepSim w9sched [] w9st).cur ∧
          (stepSim w9sched w9probes w9st).staged =
            (stepSim w9sched [] w9st).staged) ∧
        (w9st.t % (w9probes.getD 0 default).period = 0 →
          (stepSim w9sched w9probes w9st).probeStates.getD 0 (0, []) =
            ((w9probes.getD 0 default).filterStep
                (w9st.probeStates.getD 0 (0, [])).1
                ((runOps w9sched (mergedStore w9st, fun _ => none)).1
                  (w9probes.getD 0 default).target),
              (w9st.probeStates.getD 0 (0, [])).2 ++
                [(w9probes.getD 0 default).filterStep
                  (w9st.probeStates.getD 0 (0, [])).1
                  ((runOps w9sched (mergedStore w9st, fun _ => none)).1
                    (w9probes.getD 0 default).target)])) ∧
        (w9st.t % (w9probes.getD 0 default).period ≠ 0 →
          (stepSim w9sched w9probes w9st).probeStates.getD 0 (0, []) =
            w9st.probeStates.getD 0 (0, []))) :=
  ⟨by decide, by decide,
    probe_recording w9sched w9probes w9st 0 (by decide) (by decide)⟩

/-! ### C10: closing the simulator preserves the recorded data -/

lemma simulate_period_one_lengths (sched : List OpKind) (probes : List Probe)
    (hp : ∀ p ∈ probes, p.period = 1) :
    ∀ n, (simulate sched probes n (initState probes)).t = n ∧
      (simulate sched probes n (initState probes)).probeStates.length =
        probes.length ∧
      ∀ i, i < probes.length →
        ((simulate sched probes n (initState probes)).probeStates.getD i
          (0, [])).2.length = n := by
  intro n
  induction n with
  | zero =>
    refine ⟨rfl, by simp [simulate, simulateM, initState], ?_⟩
    intro i hi
    show ((probes.map (fun p => (p.filterInit, ([] : List Int)))).getD i
      (0, [])).2.length = 0
    rw [getD_map_of_lt _ hi (0, []) default]
    rfl
  | succ n ihn =>
    obtain ⟨iht, ihlen, ihser⟩ := ihn
    have hstep : simulate sched probes (n + 1) (initState probes) =
        stepSim sched probes (simulate sched probes n (initState probes)) := rfl
    set s := simulate sched probes n (initState probes) with hs
    refine ⟨?_, ?_, ?_⟩
    · rw [hstep, stepSim_t, iht]
    · rw [hstep, stepSim_probeStates, List.length_zipWith, ihlen]
      simp
    · intro i hi
      rw [hstep, stepSim_probeStates,
        getD_zipWith _ probes s.probeStates i default (0, []) (0, []) hi
          (by rw [ihlen]; exact hi)]
      have hper : (probes.getD i default).period = 1 :=
        hp _ (getD_mem_of_lt hi default)
      have hmod : s.t % (probes.getD i default).period = 0 := by
        rw [hper]
        exact Nat.mod_one _
      rw [recordProbe, if_pos hmod]
      show ((s.probeStates.getD i (0, [])).2 ++ [_]).length = n + 1
      rw [List.length_append, ihser i hi]
      rfl

/-- C10: after a run, closing the simulator (the context-manager exit)
halts it but leaves every probe's recorded series and the simulator's time
range accessible and unchanged, and for the run's per-step probes the
series and the time range have equal length, aligning index for index. -/
theorem close_observability (sched : List OpKind) (probes : List Probe)
    (dt : ℚ) (n i : Nat) (hi : i < probes.length)
    (hp : ∀ p ∈ probes, p.period = 1) :
    probeData
        (close ⟨Phase.Running, simulate sched probes n (initState probes)⟩) i =
        probeData
          (⟨Phase.Running, simulate sched probes n (initState probes)⟩ : Stepper)
          i ∧
      trange dt
          (close ⟨Phase.Running, simulate sched probes n (initState probes)⟩) =
        trange dt
          (⟨Phase.Running, simulate sched probes n (initState probes)⟩ :
            Stepper) ∧
      (close
          ⟨Phase.Running,
            simulate sched probes n (initState probes)⟩).phase = Phase.Halted ∧
      (probeData
          (close ⟨Phase.Running, simulate sched probes n (initState probes)⟩)
          i).length =
        (trange dt
          (close
            ⟨Phase.Running, simulate sched probes n (initState probes)⟩)).length := by
  obtain ⟨ht, _hlen, hser⟩ := simulate_period_one_lengths sched probes hp n
  refine ⟨rfl, rfl, rfl, ?_⟩
  show ((simulate sched probes n (initState probes)).probeStates.getD i
      (0, [])).2.length =
    ((List.range (simulate sched probes n (initState probes)).t).map
      (fun k : Nat => ((k : ℚ) + 1) * dt)).length
  rw [List.length_map, List.length_range, ht, hser i hi]

/-- Concrete probe list for the C10 witness: one unfiltered per-step
probe. -/
def w10probes : List Probe := [⟨0, 1, 0, fun _ v => v⟩]

/-- Witness for C10: one per-step probe on an empty schedule run two
steps. -/
theorem close_observability_w :
    0 < w10probes.length ∧ (∀ p ∈ w10probes, p.period = 1) ∧
      (probeData
          (close ⟨Phase.Running, simulate [] w10probes 2 (initState w10probes)⟩)
          0 =
          probeData
            (⟨Phase.Running,
              simulate [] w10probes 2 (initState w10probes)⟩ : Stepper) 0 ∧
        trange 1
            (close
              ⟨Phase.Running, simulate [] w10probes 2 (initState w10probes)⟩) =
          trange 1
            (⟨Phase.Running,
              simulate [] w10probes 2 (initState w10probes)⟩ : Stepper) ∧
        (close
            ⟨Phase.Running,
              simulate [] w10probes 2 (initState w10probes)⟩).phase =
          Phase.Halted ∧
        (probeData
            (close
              ⟨Phase.Running, simulate [] w10probes 2 (initState w10probes)⟩)
            0).length =
          (trange 1
            (close
              ⟨Phase.Running,
                simulate [] w10probes 2 (initState w10probes)⟩)).length) :=
  ⟨by decide, by decide,
    close_observability [] w10probes 1 2 0 (by decide) (by decide)⟩

end NengoCore
